import Mathlib

/-!
Shallow embedding of the synchronization / demodulation pipeline of the
CommunicationSystems repository, together with proofs settling the claims
of its specification.

Conventions used throughout:
- bit sequences (numpy arrays holding 0.0 / 1.0) are embedded as `List Bool`;
- real-valued sample sequences are embedded as `List ℚ` where every operation
  of the embedded code is exact rational arithmetic, and as `List ℝ`
  (with `Real.sqrt`, `Real.pi`, ...) where the code is transcendental;
- complex samples are embedded as pairs (re, im) or as Mathlib `ℂ`;
- code that can raise a Python exception is embedded in `Except String`;
- IEEE NaN values produced (not raised) by `np.sqrt` of a negative number are
  embedded as `Option ℝ` with `none` playing the role of NaN;
- library routines of numpy / scipy that the repository calls are embedded by
  their documented mathematical semantics (noted at each definition).
-/

namespace CRC

/-- Embedding of `xor(a, b)` from `src/USRP/Signals/lib/CRC.py`.
The Python loop runs `for i in range(1, len(b))` and appends 0 when
`a[i] == b[i]` and 1 otherwise, so the result is the pointwise XOR of `a`
and `b` restricted to indices `1 .. len(b)-1` (the leading bit is dropped).
All call sites pass an `a` with `len(a) ≥ len(b)`, so the total default
`getD _ false` is never exercised out of bounds where the code would raise. -/
def xor (a b : List Bool) : List Bool :=
  ((List.range b.length).drop 1).map (fun i => a.getD i false != b.getD i false)

/-- One iteration of the `while pick < np.size(dividend)` loop of `mod2div`:
if the leading window bit is 1 the window is XORed with the divisor, else it
is XORed with `np.ones(pick)`; either way the bit `dividend[pick]` is pulled
down.  Since `xor` only reads the first `len(tmp)` entries of its first
argument and `pick ≥ len(tmp)` at every step, `np.ones(pick)` is embedded as
`List.replicate tmp.length true`. -/
def stepW (divisor tmp : List Bool) (b : Bool) : List Bool :=
  if tmp.headD false then xor divisor tmp ++ [b]
  else xor (List.replicate tmp.length true) tmp ++ [b]

/-- The final step of `mod2div` after the loop: XOR with the divisor when the
leading bit is 1, else with `np.zeros(pick)` (embedded, as for `stepW`, as
`List.replicate tmp.length false`). -/
def finalStep (divisor tmp : List Bool) : List Bool :=
  if tmp.headD false then xor divisor tmp
  else xor (List.replicate tmp.length false) tmp

/-- The `mod2div` loop: the Python `while` loop visits `dividend[pick]` for
`pick = len(divisor), ..., len(dividend)-1` in order, which is exactly the
list `dividend.drop divisor.length`; afterwards `finalStep` is applied. -/
def divLoop (divisor tmp : List Bool) : List Bool → List Bool
  | [] => finalStep divisor tmp
  | b :: rest => divLoop divisor (stepW divisor tmp b) rest

/-- Embedding of `mod2div(dividend, divisor)` from `CRC.py`.  When the
dividend is empty (and also when the divisor is empty while the dividend is
not), the Python code evaluates `tmp[0]` on an empty slice and raises
`IndexError`; this is embedded as `Except.error`. -/
def mod2div (dividend divisor : List Bool) : Except String (List Bool) :=
  if dividend.isEmpty ∨ divisor.isEmpty then
    Except.error "IndexError: index 0 is out of bounds"
  else
    Except.ok (divLoop divisor (dividend.take divisor.length)
      (dividend.drop divisor.length))

/-- Embedding of `encodeData(data, key)` from `CRC.py`: append `len(key)-1`
zero bits, divide by the key, and append the remainder to the data. -/
def encodeData (data key : List Bool) : Except String (List Bool) :=
  (mod2div (data ++ List.replicate (key.length - 1) false) key).map
    (fun remainder => data ++ remainder)

/-- Embedding of `CRCcheck(codeword, key)` from `CRC.py`: the error flag is 0
iff the remainder of dividing the codeword by the key is all zeros
(`np.all(checkword == 0)`, which is vacuously true on an empty remainder). -/
def CRCcheck (codeword key : List Bool) : Except String Nat :=
  (mod2div codeword key).map
    (fun checkword => if checkword.all (fun c => c = false) then 0 else 1)

/-- The round trip `CRCcheck(encodeData(data, key), key)` as one expression. -/
def roundTrip (data key : List Bool) : Except String Nat :=
  encodeData data key >>= fun codeword => CRCcheck codeword key

/-- Proof device (not code): the linear part of `stepW`, obtained by XORing
away the constant it adds.  On a window with head `h` and tail `t`, `stepW`
computes tail entries `t_i ⊕ (h ∧ key_i) ⊕ ¬h` and `stepL` computes
`t_i ⊕ (h ∧ ¬key_i)`; their pointwise XOR is the constant `true`, so
`stepW` is the affine map whose linear part is `stepL`. -/
def stepL (divisor tmp : List Bool) (b : Bool) : List Bool :=
  (if tmp.headD false then
    List.zipWith (fun x y => x != y) ((divisor.drop 1).map (fun k => !k)) tmp.tail
  else tmp.tail) ++ [b]

/-- Proof device (not code): the linear part of `finalStep` (which is already
linear, having no constant term). -/
def finalL (divisor tmp : List Bool) : List Bool :=
  if tmp.headD false then List.zipWith (fun x y => x != y) (divisor.drop 1) tmp.tail
  else tmp.tail

/-- Proof device (not code): the loop built from the linear parts. -/
def divLoopL (divisor tmp : List Bool) : List Bool → List Bool
  | [] => finalL divisor tmp
  | b :: rest => divLoopL divisor (stepL divisor tmp b) rest

/-- Pointwise XOR of two same-length bit lists (proof device). -/
def lxor (a b : List Bool) : List Bool :=
  List.zipWith (fun x y => x != y) a b

end CRC

namespace PulseShaping

/-- Embedding of the library call `signal.upfirdn([1], a, M)` used by
`pulse_shaping` in `src/USRP/Signals/lib/pulse_shaping.py`: upsampling by `M`
with the identity filter inserts `M-1` zeros after each input sample and
truncates after the last input sample, so for a nonempty input of length `n`
the output has length `(n-1)*M + 1` with `a[j/M]` at multiples of `M` and
zeros elsewhere (scipy documents the output length as
`ceil(((n-1)*M + len(h)) / down)` with `h = [1]`, `down = 1`). -/
def upfirdn1 (a : List ℚ) (M : ℕ) : List ℚ :=
  if a.isEmpty then []
  else List.ofFn (fun j : Fin ((a.length - 1) * M + 1) =>
    if (j : ℕ) % M = 0 then a.getD ((j : ℕ) / M) 0 else 0)

/-- Full discrete convolution, the documented semantics of `np.convolve`
(mode "full"): output index `k` holds `∑ i, x[i] * h[k-i]`.  `np.convolve`
raises on an empty operand; the callers below surface that case as
`Except.error`, so the junk value `[]` of this total function is unreachable
from them. -/
def convFull (x h : List ℚ) : List ℚ :=
  if x.isEmpty ∨ h.isEmpty then []
  else List.ofFn (fun k : Fin (x.length + h.length - 1) =>
    ∑ i ∈ Finset.range x.length,
      if i ≤ (k : ℕ) then x.getD i 0 * h.getD ((k : ℕ) - i) 0 else 0)

/-- Length of the tap list produced by `rrcosfilter(N, alpha, Ts, Fs)` from
`pulse_shaping.py`.  The filter values are transcendental reals; the claims
about the pulse shaper only constrain lengths, so the shape of the output is
captured here by its index set while the tap values live in
`rrcosfilterTap`. -/
noncomputable def rrcosfilterTap (N : ℕ) (alpha Ts Fs : ℝ) (x : ℕ) : ℝ :=
  let T_delta : ℝ := 1 / Fs
  let t : ℝ := ((x : ℝ) - (N : ℝ) / 2) * T_delta
  if t = 0 then
    1 - alpha + 4 * alpha / Real.pi
  else if alpha ≠ 0 ∧ t = Ts / (4 * alpha) then
    (alpha / Real.sqrt 2) * ((1 + 2 / Real.pi) * Real.sin (Real.pi / (4 * alpha)) +
      (1 - 2 / Real.pi) * Real.cos (Real.pi / (4 * alpha)))
  else if alpha ≠ 0 ∧ t = -(Ts / (4 * alpha)) then
    (alpha / Real.sqrt 2) * ((1 + 2 / Real.pi) * Real.sin (Real.pi / (4 * alpha)) +
      (1 - 2 / Real.pi) * Real.cos (Real.pi / (4 * alpha)))
  else
    (Real.sin (Real.pi * t * (1 - alpha) / Ts) +
        4 * alpha * (t / Ts) * Real.cos (Real.pi * t * (1 + alpha) / Ts)) /
      (Real.pi * t * (1 - (4 * alpha * t / Ts) * (4 * alpha * t / Ts)) / Ts)

/-- Embedding of `rrcosfilter(N, alpha, Ts, Fs)` from `pulse_shaping.py`:
the pair (time indices, impulse response), each of length `N`. -/
noncomputable def rrcosfilter (N : ℕ) (alpha Ts Fs : ℝ) : List ℝ × List ℝ :=
  (List.ofFn (fun x : Fin N => ((x : ℝ) - (N : ℝ) / 2) * (1 / Fs)),
   List.ofFn (fun x : Fin N => rrcosfilterTap N alpha Ts Fs x))

/-- Rational-valued counterpart of `np.convolve` for real tap lists, used by
the `rrc` branch of `pulse_shaping` (the symbols and taps are both reals
there). -/
noncomputable def convFullR (x h : List ℝ) : List ℝ :=
  if x.isEmpty ∨ h.isEmpty then []
  else List.ofFn (fun k : Fin (x.length + h.length - 1) =>
    ∑ i ∈ Finset.range x.length,
      if i ≤ (k : ℕ) then x.getD i 0 * h.getD ((k : ℕ) - i) 0 else 0)

/-- Real-valued counterpart of `upfirdn1` (the `rect` branch works on the
same symbol list that the `rrc` branch convolves). -/
def upfirdn1R (a : List ℝ) (M : ℕ) : List ℝ :=
  if a.isEmpty then []
  else List.ofFn (fun j : Fin ((a.length - 1) * M + 1) =>
    if (j : ℕ) % M = 0 then a.getD ((j : ℕ) / M) 0 else 0)

/-- Embedding of `pulse_shaping(a, M, fs, pulse_shape, alpha, L)` from
`pulse_shaping.py`.  The function first computes `y = upfirdn([1], a, M)`;
the `rrc` branch then convolves the ORIGINAL symbol list `a` (not `y`) with
the `N = L*M` filter taps, while the `rect` branch returns `y`.  For any
other `pulse_shape` the Python code reaches `return baseband` with
`baseband` unbound and raises `UnboundLocalError`; `np.convolve` raises
`ValueError` when either operand is empty.  Both are embedded as
`Except.error`. -/
noncomputable def pulse_shaping (a : List ℝ) (M : ℕ) (fs : ℝ) (pulse_shape : String)
    (alpha : ℝ) (L : ℕ) : Except String (List ℝ) :=
  let y := upfirdn1R a M
  if pulse_shape = "rrc" then
    let N := L * M
    let T_symbol := 1 / (fs / (M : ℝ))
    let h := (rrcosfilter N alpha T_symbol fs).2
    if a.isEmpty ∨ h.isEmpty then Except.error "ValueError: np.convolve operand is empty"
    else Except.ok (convFullR a h)
  else if pulse_shape = "rect" then
    Except.ok y
  else
    Except.error "UnboundLocalError: local variable baseband referenced before assignment"

end PulseShaping

namespace Sync

/-- Embedding of `np.mean` on a rational list; `np.mean` of an empty array
is NaN (with a runtime warning, not an exception).  The junk value `0 / 0 = 0`
stands in for NaN here; every theorem below that looks at a mean does so on a
nonempty list, where the embedding is exact. -/
def npMean (l : List ℚ) : ℚ :=
  l.sum / (l.length : ℚ)

/-- The scale factor computed by `frame_sync` in
`src/Signal Processing/PySDR-master/lib/sync.py`:
`scale = np.mean(np.abs(testpacket))`. -/
def scaleOf (x : List ℚ) : ℚ :=
  npMean (x.map (fun s => |s|))

/-- The rescaling loop of `frame_sync`:
`for symbol in testpacket: symbol = (symbol + scale)/2*scale; out = np.append(out, symbol)`.
Note the Python expression `(symbol + scale)/2*scale` parses as
`((symbol + scale)/2) * scale`. -/
def frameSyncOut (x : List ℚ) : List ℚ :=
  x.foldl (fun out s => out ++ [(s + scaleOf x) / 2 * scaleOf x]) []

/-- Embedding of `scipy.signal.fftconvolve` (1-D, mode "full"): the full
discrete convolution; scipy returns an empty array when either operand is
empty. -/
def fftconvolve (a v : List ℚ) : List ℚ :=
  if a.isEmpty ∨ v.isEmpty then []
  else List.ofFn (fun k : Fin (a.length + v.length - 1) =>
    ∑ i ∈ Finset.range a.length,
      if i ≤ (k : ℕ) then a.getD i 0 * v.getD ((k : ℕ) - i) 0 else 0)

/-- Helper for `npArgmax`: scan the remaining list keeping the index of the
first strictly greatest value seen so far (numpy keeps the FIRST index on
ties, hence the strict comparison). -/
def argmaxGo : List ℚ → ℕ → ℚ → ℕ → ℕ
  | [], bestIdx, _, _ => bestIdx
  | v :: rest, bestIdx, bestVal, i =>
    if bestVal < v then argmaxGo rest i v (i + 1)
    else argmaxGo rest bestIdx bestVal (i + 1)

/-- Embedding of `np.argmax` on a 1-D array: index of the first maximal
entry; on an empty array numpy raises
`ValueError: attempt to get argmax of an empty sequence`, embedded as
`none`. -/
def npArgmax : List ℚ → Option ℕ
  | [] => none
  | v :: rest => some (argmaxGo rest 0 v 1)

/-- Python slice `l[a:b]` with the CPython semantics for negative and
out-of-range bounds: negative indices count from the end, then both bounds
are clamped to `[0, len(l)]`. -/
def pySlice (l : List ℚ) (a b : ℤ) : List ℚ :=
  let n : ℤ := l.length
  let a' : ℤ := if a < 0 then max (a + n) 0 else min a n
  let b' : ℤ := if b < 0 then max (b + n) 0 else min b n
  (l.drop a'.toNat).take (b' - a').toNat

/-- Definition written from the SPEC WORDS, not from the code, for the
refinement comparison of claim C4: the spec says the frame synchronizer
rescales every input sample `x` to `(x + scale) / (2·scale)` where
`scale = mean(|signal|)`. -/
def specRescale (x : List ℚ) : List ℚ :=
  x.map (fun s => (s + scaleOf x) / (2 * scaleOf x))

/-- Embedding of `frame_sync(testpacket, preamble, data_len)` from
`src/Signal Processing/PySDR-master/lib/sync.py`.  The rescaled copy `out`
is used only to build the cross-correlation; the returned windows are slices
of the original `testpacket`.  `signal.find_peaks` is called on the
cross-correlation but its result `peak_indices` is discarded by the code, so
it is not embedded.  `np.array(crosscorr).argmax()` raises on an empty
cross-correlation (which happens exactly when the input or the preamble is
empty), embedded as `Except.error`. -/
def frame_sync (testpacket preamble : List ℚ) (data_len : ℕ) :
    Except String (List ℚ × List ℚ) :=
  let out := frameSyncOut testpacket
  let matched_filter_coef := preamble.reverse
  let crosscorr := fftconvolve out matched_filter_coef
  match npArgmax crosscorr with
  | none => Except.error "ValueError: attempt to get argmax of an empty sequence"
  | some idx =>
    let recoveredPayload :=
      pySlice testpacket ((idx : ℤ) - preamble.length + 1) ((idx : ℤ) + data_len + 1)
    let recoveredData := recoveredPayload.drop preamble.length
    Except.ok (recoveredPayload, recoveredData)

/-- A complex sample as an explicit (re, im) pair of rationals: every
operation performed by the Mueller and Muller loop on sample values (sums,
differences, products, conjugation, sign tests) is exact rational
arithmetic. -/
abbrev CQ := ℚ × ℚ

/-- Complex multiplication on (re, im) pairs. -/
def cMul (a b : CQ) : CQ :=
  (a.1 * b.1 - a.2 * b.2, a.1 * b.2 + a.2 * b.1)

/-- Complex conjugation on (re, im) pairs (`np.conj`). -/
def cConj (a : CQ) : CQ :=
  (a.1, -a.2)

/-- Complex subtraction on (re, im) pairs. -/
def cSub (a b : CQ) : CQ :=
  (a.1 - b.1, a.2 - b.2)

/-- The mutable state of the Mueller and Muller clock-recovery loop `mmcr`
from `src/Signal Processing/PySDR-master/lib/sync.py`: the fractional phase
`mu`, the input and output indices, and the two work buffers.  The buffers
`np.zeros(len(testpacket)+10)` are embedded as total functions that are
initially constant 0; the loop writes only at `i_out < len(testpacket)` and
reads at `i_out`, `i_out-1`, `i_out-2` with `i_out ≥ 2`, all within the
Python buffer bounds. -/
structure MMState where
  mu : ℚ
  iIn : ℤ
  iOut : ℕ
  out : ℕ → CQ
  outRail : ℕ → CQ

/-- The fetch `samples_interpolated[i_in*16 + int(mu*16)]` of one `mmcr`
iteration.  `samples_interpolated = signal.resample_poly(testpacket, 16, 1)`
is a numpy array of exactly `16*len(testpacket)` samples whose VALUES are
abstracted by the total function `interp : ℤ → CQ` (the claims settled
about the loop do not depend on the interpolated values), while its numpy
1-D indexing is modelled exactly: an index in `[-16n, 0)` wraps once from
the end, and an index outside `[-16n, 16n)` raises `IndexError`, embedded
as `Except.error`. -/
def mmFetch (interp : ℤ → CQ) (n : ℕ) (idx : ℤ) : Except String CQ :=
  if -(16 * (n : ℤ)) ≤ idx ∧ idx < 16 * (n : ℤ) then
    Except.ok (if idx < 0 then interp (idx + 16 * (n : ℤ)) else interp idx)
  else Except.error "IndexError: index out of bounds"

/-- The body of one `mmcr` iteration AFTER the sample `o` has been fetched:
the hard-decision rail value, the two buffer writes at `i_out`, the timing
error `Re(y - x)`, and the `mu` / `i_in` / `i_out` updates.  Inside the
loop `mu` is always in `[0, 1)` when read, so the Python `int(mu*16)`
(truncation) agrees with the floor used in `mmStep`; `int(np.floor(mu))` is
exactly `⌊mu⌋`. -/
def mmStepWith (s : MMState) (o : CQ) : MMState :=
  let rail : CQ := ((if 0 < o.1 then 1 else 0), (if 0 < o.2 then 1 else 0))
  let out' := Function.update s.out s.iOut o
  let outRail' := Function.update s.outRail s.iOut rail
  let x := cMul (cSub (outRail' s.iOut) (outRail' (s.iOut - 2))) (cConj (out' (s.iOut - 1)))
  let y := cMul (cSub (out' s.iOut) (out' (s.iOut - 2))) (cConj (outRail' (s.iOut - 1)))
  let mm_val := (cSub y x).1
  let mu₁ := s.mu + 8 + (3 / 10) * mm_val
  { mu := mu₁ - ⌊mu₁⌋
    iIn := s.iIn + ⌊mu₁⌋
    iOut := s.iOut + 1
    out := out'
    outRail := outRail' }

/-- One full iteration of the `while` loop of `mmcr`: fetch the interpolated
sample (which can raise `IndexError`, see `mmFetch`), then run the loop
body. -/
def mmStep (interp : ℤ → CQ) (n : ℕ) (s : MMState) : Except String MMState :=
  (mmFetch interp n (s.iIn * 16 + ⌊s.mu * 16⌋)).map (mmStepWith s)

/-- The `while i_out < len(testpacket) and i_in+16 < len(testpacket)` loop of
`mmcr`, by recursion on the distance from `i_out` to the input length; an
`IndexError` raised by a fetch aborts the loop (and the whole call). -/
def mmLoop (interp : ℤ → CQ) (n : ℕ) (s : MMState) : Except String MMState :=
  if h : s.iOut < n ∧ s.iIn + 16 < (n : ℤ) then
    match mmFetch interp n (s.iIn * 16 + ⌊s.mu * 16⌋) with
    | Except.error e => Except.error e
    | Except.ok o => mmLoop interp n (mmStepWith s o)
  else Except.ok s
termination_by n - s.iOut
decreasing_by
  simp only [mmStepWith]
  omega

/-- The state of the `mmcr` loop at exit (when no fetch raised), starting
from `mu = 0`, `i_in = 0`, `i_out = 2` and zeroed buffers. -/
def mmcrFinal (interp : ℤ → CQ) (testpacket : List CQ) : Except String MMState :=
  mmLoop interp testpacket.length
    { mu := 0, iIn := 0, iOut := 2, out := fun _ => (0, 0), outRail := fun _ => (0, 0) }

/-- Embedding of `mmcr(testpacket)` from `sync.py` (with `sps = 8` as set by
the function): run the loop, then return `out[2:i_out]`, the slice of the
output buffer between 2 and the final output index; an `IndexError` raised
inside the loop propagates out of the call. -/
def mmcr (interp : ℤ → CQ) (testpacket : List CQ) : Except String (List CQ) :=
  (mmcrFinal interp testpacket).map
    (fun final => List.ofFn (fun j : Fin (final.iOut - 2) => final.out (2 + (j : ℕ))))

end Sync

namespace Costas

open Classical in
/-- The first wrap loop of the Costas section of `SignalProcessing.decode`
(`src/USRP/Signals/func.py`): `while phase >= 2*np.pi: phase -= 2*np.pi`,
embedded by well-founded recursion on the number of subtractions left. -/
noncomputable def wrapDown (x : ℝ) : ℝ :=
  if 2 * Real.pi ≤ x then wrapDown (x - 2 * Real.pi) else x
termination_by (⌈x / (2 * Real.pi)⌉).toNat
decreasing_by
  rename_i h
  have hpi : (0 : ℝ) < 2 * Real.pi := by positivity
  have h1 : (x - 2 * Real.pi) / (2 * Real.pi) = x / (2 * Real.pi) - 1 := by field_simp
  have h2 : ⌈(x - 2 * Real.pi) / (2 * Real.pi)⌉ = ⌈x / (2 * Real.pi)⌉ - 1 := by
    rw [h1, Int.ceil_sub_one]
  have h3 : (1 : ℝ) ≤ x / (2 * Real.pi) := (le_div_iff₀ hpi).mpr (by linarith)
  have h4 : (0 : ℤ) < ⌈x / (2 * Real.pi)⌉ := Int.ceil_pos.mpr (by linarith)
  omega

open Classical in
/-- The second wrap loop: `while phase < 0: phase += 2*np.pi`. -/
noncomputable def wrapUp (x : ℝ) : ℝ :=
  if x < 0 then wrapUp (x + 2 * Real.pi) else x
termination_by (⌈-x / (2 * Real.pi)⌉).toNat
decreasing_by
  rename_i h
  have hpi : (0 : ℝ) < 2 * Real.pi := by positivity
  have h1 : -(x + 2 * Real.pi) / (2 * Real.pi) = -x / (2 * Real.pi) - 1 := by field_simp; ring
  have h2 : ⌈-(x + 2 * Real.pi) / (2 * Real.pi)⌉ = ⌈-x / (2 * Real.pi)⌉ - 1 := by
    rw [h1, Int.ceil_sub_one]
  have h3 : (0 : ℝ) < -x / (2 * Real.pi) := div_pos (by linarith) hpi
  have h4 : (1 : ℤ) ≤ ⌈-x / (2 * Real.pi)⌉ := Int.ceil_pos.mpr h3
  omega

/-- Both wrap loops in source order: first bring `phase` below `2π`, then
bring it up into `[0, 2π)`. -/
noncomputable def wrapPhase (x : ℝ) : ℝ :=
  wrapUp (wrapDown x)

/-- The per-sample state of the Costas loop of `SignalProcessing.decode`
(`src/USRP/Signals/func.py`, also mirrored in `costas` of
`lib/sync.py`): the phase and frequency registers and the samples written to
`out` so far.  The `freq_log` diagnostic list is write-only there and not
needed by any claim. -/
structure State where
  phase : ℝ
  freq : ℝ
  out : List ℂ

/-- The decision-directed error of iteration `i`:
`error = np.real(out[i]) * np.imag(out[i])` where
`out[i] = testpacket[i] * np.exp(-1j*phase)`. -/
noncomputable def errorOf (phase : ℝ) (z : ℂ) : ℝ :=
  (z * Complex.exp (-(Complex.I * (phase : ℂ)))).re *
    (z * Complex.exp (-(Complex.I * (phase : ℂ)))).im

/-- One iteration of the Costas loop: write `out[i]`, compute the error,
update `freq` FIRST (`freq += beta*error`), then update `phase` using the
already-updated `freq` (`phase += freq + alpha*error`), and wrap the phase
into `[0, 2π)` by the two `while` loops. -/
noncomputable def step (alpha beta : ℝ) (s : State) (z : ℂ) : State :=
  let o := z * Complex.exp (-(Complex.I * (s.phase : ℂ)))
  let error := o.re * o.im
  let freq' := s.freq + beta * error
  let phase' := wrapPhase (s.phase + (freq' + alpha * error))
  { phase := phase', freq := freq', out := s.out ++ [o] }

/-- The whole Costas loop: `phase = 0`, `freq = 0`, then one `step` per input
sample, in order. -/
noncomputable def run (alpha beta : ℝ) (testpacket : List ℂ) : State :=
  testpacket.foldl (step alpha beta) { phase := 0, freq := 0, out := [] }

end Costas

namespace IQ

/-- Inner loop of `Mean(array, period)` from
`src/USRP/Signals/lib/IQ_Imbalance_correction.py`, iterating
`for i in range(1, period+1)` with the running pair (num, sum).  Each
iteration: reset `end = False`; if `index - i ≥ 0` add `array[index-i]`,
else set `end = True`; if `index + i < len(array)` add `array[index+i]`,
else if `end` then break. -/
def meanInner (a : List ℝ) (index : ℕ) : ℕ → ℕ → ℕ × ℝ → ℕ × ℝ
  | _, 0, acc => acc
  | i, fuel + 1, (num, sum) =>
    let endFlag := ¬ i ≤ index
    let acc1 : ℕ × ℝ :=
      if i ≤ index then (num + 1, sum + a.getD (index - i) 0) else (num, sum)
    if index + i < a.length then
      meanInner a index (i + 1) fuel (acc1.1 + 1, acc1.2 + a.getD (index + i) 0)
    else if endFlag then acc1
    else meanInner a index (i + 1) fuel acc1

/-- The mean value that `Mean` appends for a given `index`: start from
`num = 1`, `sum = array[index]`, run the inner loop for `i = 1 .. period`,
and return `sum / num`. -/
noncomputable def meanAt (a : List ℝ) (period index : ℕ) : ℝ :=
  let acc := meanInner a index 1 period (1, a.getD index 0)
  acc.2 / (acc.1 : ℝ)

/-- Embedding of `Mean(array, period)`: the list of windowed means, one per
index of the input. -/
noncomputable def Mean (a : List ℝ) (period : ℕ) : List ℝ :=
  (List.range a.length).map (meanAt a period)

/-- Embedding of `np.mean` over the reals (junk value 0 on the empty list,
where numpy produces NaN with a warning; all uses below are on nonempty
lists). -/
noncomputable def npMeanR (l : List ℝ) : ℝ :=
  l.sum / (l.length : ℝ)

/-- Embedding of scalar `np.sqrt`: NaN (here `none`) on negative input. -/
noncomputable def npSqrt (x : ℝ) : Option ℝ :=
  if x < 0 then none else some (Real.sqrt x)

/-- The bias-removed in-phase branch `I_second = I - BI` of
`IQ_Imbalance_Correct`. -/
noncomputable def Isecond (packet : List (ℝ × ℝ)) (mean_period : ℕ) : List ℝ :=
  let I := packet.map Prod.fst
  List.zipWith (fun v m => v - m) I (Mean I mean_period)

/-- The bias-removed quadrature branch `Q_Second = Q - BQ`. -/
noncomputable def Qsecond (packet : List (ℝ × ℝ)) (mean_period : ℕ) : List ℝ :=
  let Q := packet.map Prod.snd
  List.zipWith (fun v m => v - m) Q (Mean Q mean_period)

/-- The amplitude estimate `a = np.sqrt(2 * np.mean(np.square(I_second)))`.
The argument of the square root is a mean of squares, hence nonnegative, so
`np.sqrt` never produces NaN here and `Real.sqrt` embeds it exactly. -/
noncomputable def aOf (packet : List (ℝ × ℝ)) (mean_period : ℕ) : ℝ :=
  Real.sqrt (2 * npMeanR ((Isecond packet mean_period).map (fun v => v ^ 2)))

/-- The imbalance estimate `sin_psi = (2 / a) * np.mean(I_second * Q_Second)`. -/
noncomputable def sinPsi (packet : List (ℝ × ℝ)) (mean_period : ℕ) : ℝ :=
  (2 / aOf packet mean_period) *
    npMeanR (List.zipWith (fun v w => v * w) (Isecond packet mean_period)
      (Qsecond packet mean_period))

/-- Embedding of `IQ_Imbalance_Correct(packet, mean_period)` from
`IQ_Imbalance_correction.py`.  `cos_psi = np.sqrt(1 - sin_psi**2)` is NaN
when `|sin_psi| > 1`; the NaN then propagates through `C`, `D` and into
every `Q_final` entry, while `I_final = (1/a) * I` stays real.  The output
sample at index `i` is `(I_final[i], Q_final[i])` with the imaginary part an
`Option ℝ` (`none` = NaN).  No error is ever raised: the function always
returns a full-length list. -/
noncomputable def IQ_Imbalance_Correct (packet : List (ℝ × ℝ)) (mean_period : ℕ) :
    List (ℝ × Option ℝ) :=
  let I := packet.map Prod.fst
  let Q := packet.map Prod.snd
  let a := aOf packet mean_period
  let sin_psi := sinPsi packet mean_period
  let cos_psi := npSqrt (1 - sin_psi ^ 2)
  let A := 1 / a
  let C := cos_psi.map (fun c => -sin_psi / (a * c))
  let D := cos_psi.map (fun c => 1 / c)
  List.zipWith (fun i q =>
    (A * i, C.bind (fun c => D.map (fun d => c * i + d * q)))) I Q

end IQ

namespace Demod

/-- Modulus of a complex number given as an (re, im) pair: the semantics of
`np.abs` on a complex scalar. -/
noncomputable def cAbs (re im : ℝ) : ℝ :=
  Real.sqrt (re ^ 2 + im ^ 2)

/-- The bit list built by the OOK branch of `symbol_demod` in
`src/USRP/Signals/lib/symbol_demod_QAM.py`: with reference levels
`s_on = 1.0 * channel_gain` and `s_off = 0 * channel_gain`, append 1 when
`np.abs(z - s_on) < np.abs(z - s_off)` and 0 otherwise, one bit per complex
symbol `z = I[i] + 1j*Q[i]` (the input rows `baseband_symbols[0]` and
`baseband_symbols[1]`). -/
noncomputable def ookBits (I Q : List ℝ) (channel_gain : ℝ) : List ℤ :=
  let s_on := 1.0 * channel_gain
  let s_off := 0 * channel_gain
  (I.zip Q).map (fun z =>
    if cAbs (z.1 - s_on) z.2 < cAbs (z.1 - s_off) z.2 then 1 else 0)

/-- The final statement `return a_demodulated.astype(int)` of `symbol_demod`
applied to a Python LIST: for `scheme == "OOK"` (unlike the BPSK branch,
which reassigns `a_demodulated` to a numpy array) the variable still holds
the plain list built by the loop, and lists have no `astype` attribute, so
the call raises `AttributeError`. -/
def pyListAstype (bits : List ℤ) : Except String (List ℤ) :=
  Except.error "AttributeError: list object has no attribute astype"

/-- Embedding of `symbol_demod(baseband_symbols, scheme, channel_gain,
preamble_len)` restricted to `scheme = "OOK"` (the only branch the claims
exercise; for that scheme no other `if scheme == ...` branch of the source
runs): the OOK loop fills the list `ookBits I Q channel_gain`, and the final
`astype` call on that list raises. -/
noncomputable def symbol_demod_OOK (I Q : List ℝ) (channel_gain : ℝ)
    (preamble_len : ℕ) : Except String (List ℤ) :=
  pyListAstype (ookBits I Q channel_gain)

end Demod

namespace CRC

theorem xor_length (a b : List Bool) : (xor a b).length = b.length - 1 := by
  simp [xor]

theorem xor_cons (a : List Bool) (b : Bool) (t : List Bool) (h : t.length < a.length) :
    xor a (b :: t) = List.zipWith (fun x y => x != y) (a.drop 1) t := by
  apply List.ext_getElem
  · simp [xor]
    omega
  · intro i h1 h2
    have hi : i < t.length := by simpa [xor] using h1
    simp only [xor, List.getElem_map, List.getElem_drop, List.getElem_zipWith,
      List.getElem_range]
    simp only [Nat.add_comm 1 i]
    rw [List.getD_eq_getElem a false (show i + 1 < a.length by omega),
      List.getD_eq_getElem (b :: t) false (show i + 1 < (b :: t).length by simp; omega)]
    simp

theorem zipWith_bne_replicate_left (c : Bool) (t : List Bool) (n : ℕ) (h : t.length ≤ n) :
    List.zipWith (fun x y => x != y) (List.replicate n c) t = t.map (fun y => c != y) := by
  induction t generalizing n with
  | nil => simp
  | cons a t ih =>
    cases n with
    | zero => simp at h
    | succ n => simpa [List.replicate_succ] using ih n (by simpa using h)

theorem xor_replicate_true (b : Bool) (t : List Bool) :
    xor (List.replicate (t.length + 1) true) (b :: t) = t.map (fun y => !y) := by
  rw [xor_cons _ _ _ (by simp)]
  simp only [List.drop_one, List.tail_replicate, Nat.add_sub_cancel]
  rw [zipWith_bne_replicate_left true t t.length le_rfl]
  simp

theorem xor_replicate_false (b : Bool) (t : List Bool) :
    xor (List.replicate (t.length + 1) false) (b :: t) = t := by
  rw [xor_cons _ _ _ (by simp)]
  simp only [List.drop_one, List.tail_replicate, Nat.add_sub_cancel]
  rw [zipWith_bne_replicate_left false t t.length le_rfl]
  simp

theorem stepW_cons_true (key : List Bool) (t : List Bool) (c : Bool)
    (h : t.length < key.length) :
    stepW key (true :: t) c = List.zipWith (fun x y => x != y) (key.drop 1) t ++ [c] := by
  simp [stepW, xor_cons key true t h]

theorem stepW_cons_false (key : List Bool) (t : List Bool) (c : Bool) :
    stepW key (false :: t) c = t.map (fun y => !y) ++ [c] := by
  have : (false :: t).length = t.length + 1 := by simp
  simp [stepW, this, xor_replicate_true]

theorem finalStep_cons_true (key : List Bool) (t : List Bool) (h : t.length < key.length) :
    finalStep key (true :: t) = List.zipWith (fun x y => x != y) (key.drop 1) t := by
  simp [finalStep, xor_cons key true t h]

theorem finalStep_cons_false (key : List Bool) (t : List Bool) :
    finalStep key (false :: t) = t := by
  have : (false :: t).length = t.length + 1 := by simp
  simp [finalStep, this, xor_replicate_false]

theorem stepL_cons_true (key : List Bool) (t : List Bool) (c : Bool) :
    stepL key (true :: t) c =
      List.zipWith (fun x y => x != y) ((key.drop 1).map (fun k => !k)) t ++ [c] := by
  simp [stepL]

theorem stepL_cons_false (key : List Bool) (t : List Bool) (c : Bool) :
    stepL key (false :: t) c = t ++ [c] := by
  simp [stepL]

theorem finalL_cons_true (key : List Bool) (t : List Bool) :
    finalL key (true :: t) = List.zipWith (fun x y => x != y) (key.drop 1) t := by
  simp [finalL]

theorem finalL_cons_false (key : List Bool) (t : List Bool) :
    finalL key (false :: t) = t := by
  simp [finalL]

theorem lxor_cons (h₁ h₂ : Bool) (t₁ t₂ : List Bool) :
    lxor (h₁ :: t₁) (h₂ :: t₂) = (h₁ != h₂) :: lxor t₁ t₂ := by
  simp [lxor]

theorem lxor_append (t₁ t₂ l₁ l₂ : List Bool) (h : t₁.length = t₂.length) :
    lxor (t₁ ++ l₁) (t₂ ++ l₂) = lxor t₁ t₂ ++ lxor l₁ l₂ :=
  List.zipWith_append _ _ _ _ _ h

theorem lxor_self (l : List Bool) : lxor l l = List.replicate l.length false := by
  induction l with
  | nil => rfl
  | cons a l ih =>
    simp only [lxor, List.zipWith_cons_cons, bne_self_eq_false, List.length_cons,
      List.replicate_succ]
    exact congrArg _ ih

theorem lxor_replicate_false_right (l : List Bool) :
    lxor l (List.replicate l.length false) = l := by
  induction l with
  | nil => rfl
  | cons a l ih => simpa [lxor, List.replicate_succ] using ih

theorem lxor_replicate_false_left (l : List Bool) :
    lxor (List.replicate l.length false) l = l := by
  induction l with
  | nil => rfl
  | cons a l ih => simpa [lxor, List.replicate_succ] using ih

theorem lxor_zip_zip_same (k t₁ t₂ : List Bool) (h : t₁.length = t₂.length)
    (hk : t₁.length ≤ k.length) :
    lxor (List.zipWith (fun x y => x != y) k t₁) (List.zipWith (fun x y => x != y) k t₂) =
      lxor t₁ t₂ := by
  apply List.ext_getElem
  · simp [lxor]; try omega
  · intro i hi1 hi2
    have hit1 : i < t₁.length := by simp [lxor] at hi2; omega
    have hit2 : i < t₂.length := by simp [lxor] at hi2; omega
    have hik : i < k.length := by omega
    simp only [lxor, List.getElem_zipWith]
    cases k[i] <;> cases t₁[i] <;> cases t₂[i] <;> rfl

theorem lxor_zip_left (k t₁ t₂ : List Bool) (h : t₁.length = t₂.length)
    (hk : t₁.length ≤ k.length) :
    lxor (List.zipWith (fun x y => x != y) k t₁) t₂ =
      List.zipWith (fun x y => x != y) k (lxor t₁ t₂) := by
  apply List.ext_getElem
  · simp [lxor]; try omega
  · intro i hi1 hi2
    have hit1 : i < t₁.length := by simp [lxor] at hi2; omega
    have hit2 : i < t₂.length := by simp [lxor] at hi2; omega
    have hik : i < k.length := by omega
    simp only [lxor, List.getElem_zipWith]
    cases k[i] <;> cases t₁[i] <;> cases t₂[i] <;> rfl

theorem lxor_zip_right (k t₁ t₂ : List Bool) (h : t₁.length = t₂.length)
    (hk : t₁.length ≤ k.length) :
    lxor t₁ (List.zipWith (fun x y => x != y) k t₂) =
      List.zipWith (fun x y => x != y) k (lxor t₁ t₂) := by
  apply List.ext_getElem
  · simp [lxor]; try omega
  · intro i hi1 hi2
    have hit1 : i < t₁.length := by simp [lxor] at hi2; omega
    have hit2 : i < t₂.length := by simp [lxor] at hi2; omega
    have hik : i < k.length := by omega
    simp only [lxor, List.getElem_zipWith]
    cases k[i] <;> cases t₁[i] <;> cases t₂[i] <;> rfl

theorem lxor_map_not_zip_mapnot (k t₁ t₂ : List Bool) (h : t₁.length = t₂.length)
    (hk : t₁.length ≤ k.length) :
    lxor (t₁.map (fun y => !y)) (List.zipWith (fun x y => x != y) (k.map (fun x => !x)) t₂) =
      List.zipWith (fun x y => x != y) k (lxor t₁ t₂) := by
  apply List.ext_getElem
  · simp [lxor]; try omega
  · intro i hi1 hi2
    have hit1 : i < t₁.length := by simp [lxor] at hi2; omega
    have hit2 : i < t₂.length := by simp [lxor] at hi2; omega
    have hik : i < k.length := by omega
    simp only [lxor, List.getElem_zipWith, List.getElem_map]
    cases k[i] <;> cases t₁[i] <;> cases t₂[i] <;> rfl

theorem lxor_map_not_left (t₁ t₂ : List Bool) :
    lxor (t₁.map (fun y => !y)) t₂ = (lxor t₁ t₂).map (fun y => !y) := by
  apply List.ext_getElem
  · simp [lxor]
  · intro i hi1 hi2
    have hit1 : i < t₁.length := by simp [lxor] at hi2; omega
    have hit2 : i < t₂.length := by simp [lxor] at hi2; omega
    simp only [lxor, List.getElem_zipWith, List.getElem_map]
    cases t₁[i] <;> cases t₂[i] <;> rfl

theorem lxor_zip_zip_mapnot (k t₁ t₂ : List Bool) (h : t₁.length = t₂.length)
    (hk : t₁.length ≤ k.length) :
    lxor (List.zipWith (fun x y => x != y) k t₁)
        (List.zipWith (fun x y => x != y) (k.map (fun x => !x)) t₂) =
      (lxor t₁ t₂).map (fun y => !y) := by
  apply List.ext_getElem
  · simp [lxor]; try omega
  · intro i hi1 hi2
    have hit1 : i < t₁.length := by simp [lxor] at hi2; omega
    have hit2 : i < t₂.length := by simp [lxor] at hi2; omega
    have hik : i < k.length := by omega
    simp only [lxor, List.getElem_zipWith, List.getElem_map]
    cases k[i] <;> cases t₁[i] <;> cases t₂[i] <;> rfl

theorem final_affine (key w₁ w₂ : List Bool) (hlen : w₁.length = w₂.length)
    (hw : w₁.length ≤ key.length) :
    finalStep key (lxor w₁ w₂) = lxor (finalStep key w₁) (finalL key w₂) := by
  match w₁, w₂ with
  | [], [] => simp [finalStep, finalL, lxor, xor]
  | h₁ :: t₁, h₂ :: t₂ =>
    have ht : t₁.length = t₂.length := by simpa using hlen
    have htk : t₁.length < key.length := by simp at hw; omega
    have hk1 : t₁.length ≤ (key.drop 1).length := by simp; omega
    have hlx : (lxor t₁ t₂).length = t₁.length := by simp [lxor]; omega
    rw [lxor_cons]
    cases h₁ <;> cases h₂
    · rw [show ((false : Bool) != false) = false from rfl, finalStep_cons_false,
        finalStep_cons_false, finalL_cons_false]
    · rw [show ((false : Bool) != true) = true from rfl,
        finalStep_cons_true _ _ (by omega), finalStep_cons_false, finalL_cons_true,
        lxor_zip_right _ _ _ ht hk1]
    · rw [show ((true : Bool) != false) = true from rfl,
        finalStep_cons_true _ _ (by omega), finalStep_cons_true _ _ htk, finalL_cons_false,
        lxor_zip_left _ _ _ ht hk1]
    · rw [show ((true : Bool) != true) = false from rfl, finalStep_cons_false,
        finalStep_cons_true _ _ htk, finalL_cons_true, lxor_zip_zip_same _ _ _ ht hk1]

theorem step_affine (key w₁ w₂ : List Bool) (c₁ c₂ : Bool) (hlen : w₁.length = w₂.length)
    (hw : w₁.length ≤ key.length) :
    stepW key (lxor w₁ w₂) (c₁ != c₂) = lxor (stepW key w₁ c₁) (stepL key w₂ c₂) := by
  match w₁, w₂ with
  | [], [] => simp [stepW, stepL, lxor, xor]
  | h₁ :: t₁, h₂ :: t₂ =>
    have ht : t₁.length = t₂.length := by simpa using hlen
    have htk : t₁.length < key.length := by simp at hw; omega
    have hk1 : t₁.length ≤ (key.drop 1).length := by simp; omega
    have hlx : (lxor t₁ t₂).length = t₁.length := by simp [lxor]; omega
    rw [lxor_cons]
    cases h₁ <;> cases h₂
    · rw [show ((false : Bool) != false) = false from rfl, stepW_cons_false,
        stepW_cons_false, stepL_cons_false, lxor_append _ _ _ _ (by simp; omega),
        lxor_map_not_left]
      simp [lxor]
    · rw [show ((false : Bool) != true) = true from rfl,
        stepW_cons_true _ _ _ (by omega), stepW_cons_false, stepL_cons_true,
        lxor_append _ _ _ _ (by simp; omega), lxor_map_not_zip_mapnot _ _ _ ht hk1]
      simp [lxor]
    · rw [show ((true : Bool) != false) = true from rfl,
        stepW_cons_true _ _ _ (by omega), stepW_cons_true _ _ _ htk, stepL_cons_false,
        lxor_append _ _ _ _ (by simp; omega), lxor_zip_left _ _ _ ht hk1]
      simp [lxor]
    · rw [show ((true : Bool) != true) = false from rfl, stepW_cons_false,
        stepW_cons_true _ _ _ htk, stepL_cons_true,
        lxor_append _ _ _ _ (by simp; omega), lxor_zip_zip_mapnot _ _ _ ht hk1]
      simp [lxor]

theorem stepW_length (key w : List Bool) (c : Bool) (hw : 1 ≤ w.length) :
    (stepW key w c).length = w.length := by
  rcases w with - | ⟨h, t⟩
  · simp at hw
  · cases h
    · rw [stepW_cons_false]; simp
    · by_cases hk : t.length < key.length
      · rw [stepW_cons_true _ _ _ hk]; simp; omega
      · simp [stepW, xor_length]

theorem stepL_length (key w : List Bool) (c : Bool) (hw : 1 ≤ w.length)
    (hk : w.length ≤ key.length) :
    (stepL key w c).length = w.length := by
  rcases w with - | ⟨h, t⟩
  · simp at hw
  · simp at hk
    cases h
    · rw [stepL_cons_false]; simp
    · rw [stepL_cons_true]; simp; omega

theorem finalStep_length (key w : List Bool) :
    (finalStep key w).length = w.length - 1 := by
  unfold finalStep
  split <;> simp [xor_length]

theorem divLoop_length (key : List Bool) (q w : List Bool) (hw : 1 ≤ w.length) :
    (divLoop key w q).length = w.length - 1 := by
  induction q generalizing w with
  | nil => simpa [divLoop] using finalStep_length key w
  | cons c q ih =>
    rw [divLoop, ih _ (by rw [stepW_length key w c hw]; omega), stepW_length key w c hw]

theorem divLoop_affine (key : List Bool) (q₁ q₂ w₁ w₂ : List Bool)
    (hw₁ : w₁.length = key.length) (hw₂ : w₂.length = key.length)
    (hk : 1 ≤ key.length) (hq : q₁.length = q₂.length) :
    divLoop key (lxor w₁ w₂) (lxor q₁ q₂) =
      lxor (divLoop key w₁ q₁) (divLoopL key w₂ q₂) := by
  induction q₁ generalizing q₂ w₁ w₂ with
  | nil =>
    have : q₂ = [] := by
      cases q₂ with
      | nil => rfl
      | cons c q => simp at hq
    subst this
    simpa [lxor, divLoop, divLoopL] using
      final_affine key w₁ w₂ (hw₁.trans hw₂.symm) (le_of_eq hw₁)
  | cons c₁ q₁ ih =>
    cases q₂ with
    | nil => simp at hq
    | cons c₂ q₂ =>
      have hq' : q₁.length = q₂.length := by simpa using hq
      rw [lxor_cons, divLoop, divLoopL, divLoop,
        step_affine key w₁ w₂ c₁ c₂ (hw₁.trans hw₂.symm) (le_of_eq hw₁),
        ih q₂ (stepW key w₁ c₁) (stepL key w₂ c₂)
          (by rw [stepW_length key w₁ c₁ (by omega)]; exact hw₁)
          (by rw [stepL_length key w₂ c₂ (by omega) (le_of_eq hw₂)]; exact hw₂)
          hq']

theorem divLoopL_shift (key : List Bool) (m : ℕ) (y : List Bool)
    (hm : 1 ≤ m) (hy : y.length + 1 = key.length) :
    divLoopL key ((List.replicate m false ++ y).take key.length)
      ((List.replicate m false ++ y).drop key.length) = y := by
  induction m, hm using Nat.le_induction with
  | base =>
    have hlen : (List.replicate 1 false ++ y).length = key.length := by simp; omega
    rw [show List.replicate 1 false ++ y = false :: y from rfl] at *
    rw [← hlen, List.take_length, List.drop_length]
    simpa [divLoopL] using finalL_cons_false key y
  | succ m hm ih =>
    have hk1 : 1 ≤ key.length := by omega
    have hTlen : key.length ≤ (List.replicate m false ++ y).length := by simp; omega
    have hidx : key.length - 1 < (List.replicate m false ++ y).length := by simp; omega
    rw [show List.replicate (m + 1) false ++ y =
      false :: (List.replicate m false ++ y) by simp [List.replicate_succ]]
    rw [show key.length = (key.length - 1) + 1 by omega, List.take_succ_cons,
      List.drop_succ_cons, List.drop_eq_getElem_cons hidx, divLoopL, stepL_cons_false,
      ← List.concat_eq_append, List.take_concat_get,
      show (key.length - 1) + 1 = key.length by omega]
    exact ih

theorem lxor_take (a b : List Bool) (n : ℕ) :
    (lxor a b).take n = lxor (a.take n) (b.take n) := by
  simp [lxor, List.take_zipWith]

theorem lxor_drop (a b : List Bool) (n : ℕ) :
    (lxor a b).drop n = lxor (a.drop n) (b.drop n) := by
  simp [lxor, List.drop_zipWith]

theorem finalStep_replicate_false (key : List Bool) (k : ℕ) :
    finalStep key (List.replicate (k + 1) false) = List.replicate k false := by
  rw [List.replicate_succ, finalStep_cons_false]

theorem mod2div_of_ne (dividend divisor : List Bool) (hd : dividend ≠ [])
    (hk : divisor ≠ []) :
    mod2div dividend divisor =
      Except.ok (divLoop divisor (dividend.take divisor.length)
        (dividend.drop divisor.length)) := by
  simp [mod2div, hd, hk]

/-- The heart of the round-trip argument: for a nonempty data list, the
remainder `r` appended by `encodeData` makes the check division of `d ++ r`
come out all zeros, because `mod2div` is an affine map over GF(2) whose
linear part leaves a remainder-sized suffix of an otherwise-zero dividend
unchanged. -/
theorem check_division_zero (d key : List Bool) (hk : 2 ≤ key.length) (hd : d ≠ []) :
    divLoop key
        ((d ++ divLoop key ((d ++ List.replicate (key.length - 1) false).take key.length)
          ((d ++ List.replicate (key.length - 1) false).drop key.length)).take key.length)
        ((d ++ divLoop key ((d ++ List.replicate (key.length - 1) false).take key.length)
          ((d ++ List.replicate (key.length - 1) false).drop key.length)).drop key.length) =
      List.replicate (key.length - 1) false := by
  set n := key.length with hn
  set L := d.length with hL
  have hL1 : 1 ≤ L := by
    cases d with
    | nil => exact absurd rfl hd
    | cons a l => simp [hL]
  set D₀ := d ++ List.replicate (n - 1) false with hD₀
  have hD₀len : D₀.length = L + (n - 1) := by simp [hD₀, hL]
  set r := divLoop key (D₀.take n) (D₀.drop n) with hr
  have hwlen : (D₀.take n).length = n := by simp [hD₀, hL]; omega
  have hrlen : r.length = n - 1 := by
    rw [hr, divLoop_length key _ _ (by omega), hwlen]
  set Z := List.replicate L false ++ r with hZ
  have hZlen : Z.length = L + (n - 1) := by simp [hZ, hrlen]
  have hdr : d ++ r = lxor D₀ Z := by
    rw [hD₀, hZ, lxor_append d _ _ _ (by simp [hL]), hL,
      lxor_replicate_false_right d]
    rw [show List.replicate (n - 1) false = List.replicate r.length false by rw [hrlen],
      lxor_replicate_false_left r]
  rw [hdr, lxor_take, lxor_drop]
  have hZw : (Z.take n).length = n := by simp [hZlen]; omega
  rw [divLoop_affine key (D₀.drop n) (Z.drop n) (D₀.take n) (Z.take n) hwlen hZw
    (by omega) (by simp [hD₀len, hZlen])]
  have hshift : divLoopL key (Z.take n) (Z.drop n) = r := by
    rw [hZ]
    exact divLoopL_shift key L r hL1 (by omega)
  rw [hshift, ← hr, lxor_self r, hrlen]

/-- The remainder produced by dividing an all-zero dividend is all zeros. -/
theorem roundTrip_empty_data (key : List Bool) (hk : 3 ≤ key.length) :
    roundTrip [] key = Except.ok 0 := by
  have h2 : key.length - 1 = (key.length - 2) + 1 := by omega
  have h3 : key.length - 2 = (key.length - 3) + 1 := by omega
  have hkne : key ≠ [] := by intro h; rw [h] at hk; simp at hk
  have henc : encodeData [] key = Except.ok (List.replicate (key.length - 2) false) := by
    rw [encodeData, mod2div_of_ne _ _ (by simp; omega) hkne]
    simp only [List.nil_append]
    rw [List.take_replicate, List.drop_replicate]
    rw [show min key.length (key.length - 1) = (key.length - 2) + 1 by omega,
      show key.length - 1 - key.length = 0 by omega]
    simp [divLoop, finalStep_replicate_false, Except.map]
  rw [roundTrip, henc]
  show CRCcheck (List.replicate (key.length - 2) false) key = Except.ok 0
  rw [CRCcheck, mod2div_of_ne _ _ (by simp; omega) hkne]
  rw [List.take_replicate, List.drop_replicate,
    show min key.length (key.length - 2) = (key.length - 3) + 1 by omega,
    show key.length - 2 - key.length = 0 by omega]
  simp [divLoop, finalStep_replicate_false, Except.map, List.mem_replicate]

end CRC

-- Sanity check against a hand trace of the Python code on the driver data of
-- `CRC.py` (`data = [1,0,0,1,0,0]`, `key = [1,1,0,1]`).
example :
    CRC.mod2div [true, false, false, true, false, false, false, false, false]
      [true, true, false, true] = Except.ok [false, true, false] := rfl

/-- Claim C1, counterexample to the claim as stated: on the empty bit
sequence with a key of length 2, `CRCcheck(encodeData(d, k), k)` does not
return 0: `encodeData` produces the empty codeword, and `mod2div` inside
`CRCcheck` then evaluates `tmp[0]` on an empty window and raises
`IndexError`. -/
theorem C1_counterexample :
    CRC.roundTrip [] [true, true] =
      Except.error "IndexError: index 0 is out of bounds" ∧
    CRC.roundTrip [] [true, true] ≠ Except.ok 0 := by
  refine ⟨rfl, fun h => ?_⟩
  rw [show CRC.roundTrip [] [true, true] =
    Except.error "IndexError: index 0 is out of bounds" from rfl] at h
  exact Except.noConfusion h

/-- Claim C1 (amended): for every key `k` with `len(k) ≥ 2` and every bit
sequence `d` that is nonempty (or any `d` when `len(k) ≥ 3`), checking the
encoded codeword succeeds: `CRCcheck(encodeData(d, k), k) = 0`.  The lone
excluded point is `d = []` with `len(k) = 2`, where the code raises
`IndexError` (see the counterexample). -/
theorem C1_crc_roundtrip (d key : List Bool) (hk : 2 ≤ key.length)
    (hd : d ≠ [] ∨ 3 ≤ key.length) :
    CRC.roundTrip d key = Except.ok 0 := by
  by_cases hde : d = []
  · subst hde
    rcases hd with hd | hk3
    · exact absurd rfl hd
    · exact CRC.roundTrip_empty_data key hk3
  · have hkne : key ≠ [] := by intro h; rw [h] at hk; simp at hk
    have hD₀ne : d ++ List.replicate (key.length - 1) false ≠ [] := by
      intro h; exact hde (List.append_eq_nil.mp h).1
    rw [CRC.roundTrip, CRC.encodeData, CRC.mod2div_of_ne _ _ hD₀ne hkne]
    show CRC.CRCcheck
      (d ++ CRC.divLoop key ((d ++ List.replicate (key.length - 1) false).take key.length)
        ((d ++ List.replicate (key.length - 1) false).drop key.length)) key = Except.ok 0
    have hcwne : d ++ CRC.divLoop key
        ((d ++ List.replicate (key.length - 1) false).take key.length)
        ((d ++ List.replicate (key.length - 1) false).drop key.length) ≠ [] := by
      intro h; exact hde (List.append_eq_nil.mp h).1
    rw [CRC.CRCcheck, CRC.mod2div_of_ne _ _ hcwne hkne,
      CRC.check_division_zero d key hk hde]
    simp [Except.map, List.mem_replicate]

/-- Claim C1, witness: a concrete nonempty data list and a length-4 key on
which the amended round-trip theorem applies. -/
theorem C1_witness :
    2 ≤ ([true, true, false, true] : List Bool).length ∧
    CRC.roundTrip [true, false] [true, true, false, true] = Except.ok 0 :=
  ⟨by decide, C1_crc_roundtrip [true, false] [true, true, false, true] (by decide)
    (Or.inl (by decide))⟩

/-- Claim C2: on a step whose window has leading bit 0, `mod2div` does NOT
pass the window through shifted (as the claim, the comment in the code, and
standard CRC long division all state): it XORs with `np.ones(pick)` and so
COMPLEMENTS the window tail.  Concretely, dividing `[0,1,0]` by `[1,1]`, the
first loop step turns the window `[0,1]` with incoming bit 0 into `[0,0]`,
not into the shifted window `[1,0]`; in general the zero-branch produces the
complemented tail `t.map (!)` followed by the pulled-down bit. -/
theorem C2_zero_branch_complements :
    CRC.mod2div [false, true, false] [true, true] =
      Except.ok (CRC.finalStep [true, true] (CRC.stepW [true, true] [false, true] false)) ∧
    CRC.stepW [true, true] [false, true] false = [false, false] ∧
    CRC.stepW [true, true] [false, true] false ≠ [true, false] ∧
    (∀ (key t : List Bool) (c : Bool),
      CRC.stepW key (false :: t) c = t.map (fun y => !y) ++ [c]) :=
  ⟨rfl, rfl, by decide, fun key t c => CRC.stepW_cons_false key t c⟩

namespace PulseShaping

theorem upfirdn1R_length (a : List ℝ) (M : ℕ) (ha : a ≠ []) :
    (upfirdn1R a M).length = (a.length - 1) * M + 1 := by
  simp [upfirdn1R, ha]

theorem convFullR_length (x h : List ℝ) (hx : x ≠ []) (hh : h ≠ []) :
    (convFullR x h).length = x.length + h.length - 1 := by
  simp [convFullR, hx, hh]

theorem rrcosfilter_taps_length (N : ℕ) (alpha Ts Fs : ℝ) :
    ((rrcosfilter N alpha Ts Fs).2).length = N := by
  simp [rrcosfilter]

end PulseShaping

/-- Claim C3, counterexample to the claim as stated: two symbols shaped with
the rectangular pulse at `sps = 8` give `upfirdn([1], a, 8)`, whose length is
`(2-1)*8 + 1 = 9`, not `len(symbols)*sps = 16` as claimed. -/
theorem C3_counterexample :
    PulseShaping.pulse_shaping [1, 1] 8 1 "rect" 0 1 =
      Except.ok (PulseShaping.upfirdn1R [1, 1] 8) ∧
    (PulseShaping.upfirdn1R ([1, 1] : List ℝ) 8).length = 9 ∧ (9 : ℕ) ≠ 2 * 8 := by
  refine ⟨?_, ?_, by decide⟩
  · simp [PulseShaping.pulse_shaping]
  · rw [PulseShaping.upfirdn1R_length _ _ (by simp)]
    simp

/-- Claim C3 (amended): for a nonempty symbol list and `sps = M ≥ 1`, the
`rect` shape returns the upsampled sequence `upfirdn([1], a, M)` of length
`(len(a)-1)*M + 1` (not `len(a)*M`), and the `rrc` shape convolves the
ORIGINAL (non-upsampled) symbol list with the `N = L*M` filter taps, giving
length `len(a) + L*M - 1` (not `len(a)*M + N - 1`). -/
theorem C3_pulse_shaping_lengths (a : List ℝ) (M L : ℕ) (fs alpha : ℝ)
    (ha : a ≠ []) (hM : 1 ≤ M) (hL : 1 ≤ L) :
    (PulseShaping.pulse_shaping a M fs "rect" alpha L =
        Except.ok (PulseShaping.upfirdn1R a M) ∧
      (PulseShaping.upfirdn1R a M).length = (a.length - 1) * M + 1) ∧
    (PulseShaping.pulse_shaping a M fs "rrc" alpha L =
        Except.ok (PulseShaping.convFullR a
          ((PulseShaping.rrcosfilter (L * M) alpha (1 / (fs / (M : ℝ))) fs).2)) ∧
      (PulseShaping.convFullR a
          ((PulseShaping.rrcosfilter (L * M) alpha (1 / (fs / (M : ℝ))) fs).2)).length =
        a.length + L * M - 1) := by
  have hhlen : ((PulseShaping.rrcosfilter (L * M) alpha (1 / (fs / (M : ℝ))) fs).2).length =
      L * M := PulseShaping.rrcosfilter_taps_length _ _ _ _
  have hhne : (PulseShaping.rrcosfilter (L * M) alpha (1 / (fs / (M : ℝ))) fs).2 ≠ [] := by
    apply List.ne_nil_of_length_pos
    rw [hhlen]
    exact Nat.mul_pos hL hM
  have hhne2 : ¬(PulseShaping.rrcosfilter (L * M) alpha ((M : ℝ) / fs) fs).2 = [] := by
    rw [← one_div_div fs (M : ℝ)]
    exact hhne
  refine ⟨⟨?_, PulseShaping.upfirdn1R_length a M ha⟩, ⟨?_, ?_⟩⟩
  · simp [PulseShaping.pulse_shaping]
  · simp [PulseShaping.pulse_shaping, ha, hhne, hhne2]
  · rw [PulseShaping.convFullR_length a _ ha hhne, hhlen]

/-- Claim C3, witness: one symbol, `M = L = 1`; the rect output has length
`(1-1)*1 + 1 = 1` and the rrc output has length `1 + 1*1 - 1 = 1`. -/
theorem C3_witness :
    ([(1 : ℝ)] : List ℝ) ≠ [] ∧ 1 ≤ 1 ∧
    (PulseShaping.pulse_shaping [(1 : ℝ)] 1 1 "rect" 0 1 =
        Except.ok (PulseShaping.upfirdn1R [(1 : ℝ)] 1) ∧
      (PulseShaping.upfirdn1R [(1 : ℝ)] 1).length = (1 - 1) * 1 + 1) ∧
    (PulseShaping.pulse_shaping [(1 : ℝ)] 1 1 "rrc" 0 1 =
        Except.ok (PulseShaping.convFullR [(1 : ℝ)]
          ((PulseShaping.rrcosfilter (1 * 1) 0 (1 / (1 / (1 : ℝ))) 1).2)) ∧
      (PulseShaping.convFullR [(1 : ℝ)]
          ((PulseShaping.rrcosfilter (1 * 1) 0 (1 / (1 / (1 : ℝ))) 1).2)).length =
        1 + 1 * 1 - 1) := by
  refine ⟨by simp, le_rfl, ?_⟩
  simpa using C3_pulse_shaping_lengths [(1 : ℝ)] 1 1 1 0 (by simp) le_rfl le_rfl

namespace Sync

theorem foldl_append_eq_map (f : ℚ → ℚ) (l acc : List ℚ) :
    l.foldl (fun out s => out ++ [f s]) acc = acc ++ l.map f := by
  induction l generalizing acc with
  | nil => simp
  | cons a l ih => simp [ih]

end Sync

/-- Claim C4, counterexample to the claim as stated: on the one-sample input
`[2]` the scale is 2 and the code computes `(2+2)/2*2 = 4`, while the
rescaling stated by the claim, `(x+scale)/(2*scale)`, gives `(2+2)/4 = 1`. -/
theorem C4_counterexample :
    Sync.frameSyncOut [2] = [4] ∧ Sync.specRescale [2] = [1] ∧
    Sync.frameSyncOut [2] ≠ Sync.specRescale [2] := by
  refine ⟨?_, ?_, ?_⟩ <;>
    norm_num [Sync.frameSyncOut, Sync.specRescale, Sync.scaleOf, Sync.npMean]

/-- Claim C4 (amended): before cross-correlating, the frame synchronizer
rescales every input sample `x` to `((x + scale)/2)·scale` — the Python
expression `(symbol + scale)/2*scale` parses as a multiplication BY `scale`
after division by 2, not as division by `2*scale` — where
`scale = mean(|signal|)`. -/
theorem C4_frame_sync_rescale (x : List ℚ) :
    Sync.frameSyncOut x = x.map (fun s => (s + Sync.scaleOf x) / 2 * Sync.scaleOf x) := by
  simpa using Sync.foldl_append_eq_map (fun s => (s + Sync.scaleOf x) / 2 * Sync.scaleOf x) x []

namespace Sync

theorem frameSyncOut_eq_map (x : List ℚ) :
    frameSyncOut x = x.map (fun s => (s + scaleOf x) / 2 * scaleOf x) := by
  simpa using foldl_append_eq_map (fun s => (s + scaleOf x) / 2 * scaleOf x) x []

theorem frameSyncOut_length (x : List ℚ) : (frameSyncOut x).length = x.length := by
  rw [frameSyncOut_eq_map]
  simp

theorem mmStepWith_iOut (s : MMState) (o : CQ) :
    (mmStepWith s o).iOut = s.iOut + 1 := rfl

theorem mmLoop_ok_iOut_le (interp : ℤ → CQ) (n : ℕ) (s : MMState) :
    ∀ final, mmLoop interp n s = Except.ok final → final.iOut ≤ max n s.iOut := by
  refine mmLoop.induct interp n
    (fun s => ∀ final, mmLoop interp n s = Except.ok final → final.iOut ≤ max n s.iOut)
    ?_ ?_ ?_ s
  · intro x hx e hfe final hok
    rw [mmLoop, dif_pos hx, hfe] at hok
    simp at hok
  · intro x hx o hfo ih final hok
    rw [mmLoop, dif_pos hx, hfo] at hok
    have h1 := ih final hok
    rw [mmStepWith_iOut] at h1
    have hx1 := hx.1
    refine le_trans h1 ?_
    have hmax1 : max n (x.iOut + 1) = n := max_eq_left (by omega)
    rw [hmax1]
    exact le_max_left _ _
  · intro x hx final hok
    rw [mmLoop, dif_neg hx] at hok
    cases hok
    exact le_max_right _ _

theorem mmcr_ok (interp : ℤ → CQ) (testpacket : List CQ) (final : MMState)
    (hok : mmcrFinal interp testpacket = Except.ok final) :
    mmcr interp testpacket =
      Except.ok (List.ofFn (fun j : Fin (final.iOut - 2) => final.out (2 + (j : ℕ)))) := by
  rw [mmcr, hok]
  rfl

theorem mmcrFinal_ok_iOut_le (interp : ℤ → CQ) (testpacket : List CQ) (final : MMState)
    (hok : mmcrFinal interp testpacket = Except.ok final) :
    final.iOut ≤ max testpacket.length 2 :=
  mmLoop_ok_iOut_le interp testpacket.length _ final hok

theorem mmcr_short (interp : ℤ → CQ) (testpacket : List CQ)
    (h : testpacket.length ≤ 16) : mmcr interp testpacket = Except.ok [] := by
  have hguard : ¬(((2 : ℕ) < testpacket.length) ∧ ((0 : ℤ) + 16 < (testpacket.length : ℤ))) := by
    intro hc
    have := hc.2
    omega
  rw [mmcr, mmcrFinal, mmLoop]
  rw [dif_neg hguard]
  simp [Except.map]

theorem fftconvolve_ne_nil (a v : List ℚ) (ha : a ≠ []) (hv : v ≠ []) :
    fftconvolve a v ≠ [] := by
  apply List.ne_nil_of_length_pos
  have h1 : 0 < a.length := List.length_pos.mpr ha
  have h2 : 0 < v.length := List.length_pos.mpr hv
  simp [fftconvolve, ha, hv]
  omega

theorem frame_sync_ok_of_ne_nil (sig pre : List ℚ) (dlen : ℕ)
    (hsig : sig ≠ []) (hpre : pre ≠ []) :
    ∃ r, frame_sync sig pre dlen = Except.ok r := by
  have hout : frameSyncOut sig ≠ [] := by
    apply List.ne_nil_of_length_pos
    rw [frameSyncOut_length]
    exact List.length_pos.mpr hsig
  have hcoef : pre.reverse ≠ [] := by simp [hpre]
  have hcc := fftconvolve_ne_nil _ _ hout hcoef
  obtain ⟨v, rest, hvr⟩ := List.exists_cons_of_ne_nil hcc
  rw [frame_sync, hvr]
  exact ⟨_, rfl⟩

end Sync

namespace Sync

theorem mmStepWith_cex1_iOut :
    (mmStepWith ⟨0, 0, 2, (fun _ => ((0 : ℚ), (0 : ℚ))), (fun _ => ((0 : ℚ), (0 : ℚ)))⟩
      ((1 : ℚ), (0 : ℚ))).iOut = 3 := rfl

theorem mmStepWith_cex1_iIn :
    (mmStepWith ⟨0, 0, 2, (fun _ => ((0 : ℚ), (0 : ℚ))), (fun _ => ((0 : ℚ), (0 : ℚ)))⟩
      ((1 : ℚ), (0 : ℚ))).iIn = 8 := by
  simp only [mmStepWith]
  norm_num [cMul, cSub, cConj, Function.update_same, Function.update_noteq]

theorem mmStepWith_cex1_mu :
    (mmStepWith ⟨0, 0, 2, (fun _ => ((0 : ℚ), (0 : ℚ))), (fun _ => ((0 : ℚ), (0 : ℚ)))⟩
      ((1 : ℚ), (0 : ℚ))).mu = 0 := by
  simp only [mmStepWith]
  norm_num [cMul, cSub, cConj, Function.update_same, Function.update_noteq]

theorem mmStepWith_cex2_iOut :
    (mmStepWith (mmStepWith ⟨0, 0, 2, (fun _ => ((0 : ℚ), (0 : ℚ))),
      (fun _ => ((0 : ℚ), (0 : ℚ)))⟩ ((1 : ℚ), (0 : ℚ))) ((-3000 : ℚ), (0 : ℚ))).iOut = 4 := rfl

theorem mmStepWith_cex2_iIn :
    (mmStepWith (mmStepWith ⟨0, 0, 2, (fun _ => ((0 : ℚ), (0 : ℚ))),
      (fun _ => ((0 : ℚ), (0 : ℚ)))⟩ ((1 : ℚ), (0 : ℚ))) ((-3000 : ℚ), (0 : ℚ))).iIn = -884 := by
  simp only [mmStepWith]
  norm_num [cMul, cSub, cConj, Function.update_same, Function.update_noteq]

theorem mmStepWith_cex2_mu :
    (mmStepWith (mmStepWith ⟨0, 0, 2, (fun _ => ((0 : ℚ), (0 : ℚ))),
      (fun _ => ((0 : ℚ), (0 : ℚ)))⟩ ((1 : ℚ), (0 : ℚ))) ((-3000 : ℚ), (0 : ℚ))).mu = 0 := by
  simp only [mmStepWith]
  norm_num [cMul, cSub, cConj, Function.update_same, Function.update_noteq]

end Sync

/-- Claim C8, counterexample to the claim as stated: the loop does NOT
return an output for every input.  On a 40-sample input whose interpolated
buffer holds `+1` at offset 0 and `-3000` at offset 128 (a large negative
timing error), iteration 1 advances `i_in` to 8, iteration 2 computes
`mm_val = -3000` so `mu += 8 + 0.3*(-3000)` drives `i_in` to `-884`, and
iteration 3 — its guard `i_out < 40 and i_in+16 < 40` still true — fetches
`samples_interpolated[-14144]`, below `-16*40 = -640`, so numpy raises
`IndexError` and the call never returns a slice. -/
theorem C8_counterexample :
    Sync.mmcr (fun i => if i = 128 then ((-3000 : ℚ), (0 : ℚ)) else if i = 0 then (1, 0)
      else (0, 0)) (List.replicate 40 ((0 : ℚ), (0 : ℚ))) =
      Except.error "IndexError: index out of bounds" := by
  set interp : ℤ → Sync.CQ := fun i =>
    if i = 128 then ((-3000 : ℚ), (0 : ℚ)) else if i = 0 then (1, 0) else (0, 0) with hinterp
  have hf1 : Sync.mmFetch interp 40
      ((⟨0, 0, 2, (fun _ => ((0 : ℚ), (0 : ℚ))), (fun _ => ((0 : ℚ), (0 : ℚ)))⟩ :
        Sync.MMState).iIn * 16 +
       ⌊(⟨0, 0, 2, (fun _ => ((0 : ℚ), (0 : ℚ))), (fun _ => ((0 : ℚ), (0 : ℚ)))⟩ :
        Sync.MMState).mu * 16⌋) = Except.ok ((1 : ℚ), (0 : ℚ)) := by
    show Sync.mmFetch interp 40 ((0 : ℤ) * 16 + ⌊(0 : ℚ) * 16⌋) = Except.ok ((1 : ℚ), (0 : ℚ))
    norm_num [Sync.mmFetch, hinterp]
  have hf2 : Sync.mmFetch interp 40
      ((Sync.mmStepWith ⟨0, 0, 2, (fun _ => ((0 : ℚ), (0 : ℚ))),
          (fun _ => ((0 : ℚ), (0 : ℚ)))⟩ ((1 : ℚ), (0 : ℚ))).iIn * 16 +
       ⌊(Sync.mmStepWith ⟨0, 0, 2, (fun _ => ((0 : ℚ), (0 : ℚ))),
          (fun _ => ((0 : ℚ), (0 : ℚ)))⟩ ((1 : ℚ), (0 : ℚ))).mu * 16⌋) =
      Except.ok ((-3000 : ℚ), (0 : ℚ)) := by
    rw [Sync.mmStepWith_cex1_iIn, Sync.mmStepWith_cex1_mu]
    norm_num [Sync.mmFetch, hinterp]
  have hf3 : Sync.mmFetch interp 40
      ((Sync.mmStepWith (Sync.mmStepWith ⟨0, 0, 2, (fun _ => ((0 : ℚ), (0 : ℚ))),
          (fun _ => ((0 : ℚ), (0 : ℚ)))⟩ ((1 : ℚ), (0 : ℚ))) ((-3000 : ℚ), (0 : ℚ))).iIn * 16 +
       ⌊(Sync.mmStepWith (Sync.mmStepWith ⟨0, 0, 2, (fun _ => ((0 : ℚ), (0 : ℚ))),
          (fun _ => ((0 : ℚ), (0 : ℚ)))⟩ ((1 : ℚ), (0 : ℚ))) ((-3000 : ℚ), (0 : ℚ))).mu * 16⌋) =
      Except.error "IndexError: index out of bounds" := by
    rw [Sync.mmStepWith_cex2_iIn, Sync.mmStepWith_cex2_mu]
    norm_num [Sync.mmFetch]
  have hg1 : ((⟨0, 0, 2, (fun _ => ((0 : ℚ), (0 : ℚ))), (fun _ => ((0 : ℚ), (0 : ℚ)))⟩ :
      Sync.MMState).iOut < 40) ∧
      ((⟨0, 0, 2, (fun _ => ((0 : ℚ), (0 : ℚ))), (fun _ => ((0 : ℚ), (0 : ℚ)))⟩ :
        Sync.MMState).iIn + 16 < ((40 : ℕ) : ℤ)) := ⟨by norm_num, by norm_num⟩
  have hg2 : ((Sync.mmStepWith ⟨0, 0, 2, (fun _ => ((0 : ℚ), (0 : ℚ))),
      (fun _ => ((0 : ℚ), (0 : ℚ)))⟩ ((1 : ℚ), (0 : ℚ))).iOut < 40) ∧
      ((Sync.mmStepWith ⟨0, 0, 2, (fun _ => ((0 : ℚ), (0 : ℚ))),
        (fun _ => ((0 : ℚ), (0 : ℚ)))⟩ ((1 : ℚ), (0 : ℚ))).iIn + 16 < ((40 : ℕ) : ℤ)) :=
    ⟨by rw [Sync.mmStepWith_cex1_iOut]; norm_num,
     by rw [Sync.mmStepWith_cex1_iIn]; norm_num⟩
  have hg3 : ((Sync.mmStepWith (Sync.mmStepWith ⟨0, 0, 2, (fun _ => ((0 : ℚ), (0 : ℚ))),
      (fun _ => ((0 : ℚ), (0 : ℚ)))⟩ ((1 : ℚ), (0 : ℚ))) ((-3000 : ℚ), (0 : ℚ))).iOut < 40) ∧
      ((Sync.mmStepWith (Sync.mmStepWith ⟨0, 0, 2, (fun _ => ((0 : ℚ), (0 : ℚ))),
        (fun _ => ((0 : ℚ), (0 : ℚ)))⟩ ((1 : ℚ), (0 : ℚ))) ((-3000 : ℚ), (0 : ℚ))).iIn + 16 <
        ((40 : ℕ) : ℤ)) :=
    ⟨by rw [Sync.mmStepWith_cex2_iOut]; norm_num,
     by rw [Sync.mmStepWith_cex2_iIn]; norm_num⟩
  have hloop : Sync.mmLoop interp 40
      ⟨0, 0, 2, (fun _ => ((0 : ℚ), (0 : ℚ))), (fun _ => ((0 : ℚ), (0 : ℚ)))⟩ =
      Except.error "IndexError: index out of bounds" := by
    rw [Sync.mmLoop, dif_pos hg1, hf1]
    show Sync.mmLoop interp 40 (Sync.mmStepWith ⟨0, 0, 2, (fun _ => ((0 : ℚ), (0 : ℚ))),
      (fun _ => ((0 : ℚ), (0 : ℚ)))⟩ ((1 : ℚ), (0 : ℚ))) = _
    rw [Sync.mmLoop, dif_pos hg2, hf2]
    show Sync.mmLoop interp 40 (Sync.mmStepWith (Sync.mmStepWith ⟨0, 0, 2,
      (fun _ => ((0 : ℚ), (0 : ℚ))), (fun _ => ((0 : ℚ), (0 : ℚ)))⟩ ((1 : ℚ), (0 : ℚ)))
      ((-3000 : ℚ), (0 : ℚ))) = _
    rw [Sync.mmLoop, dif_pos hg3, hf3]
  rw [Sync.mmcr, Sync.mmcrFinal]
  rw [show (List.replicate 40 ((0 : ℚ), (0 : ℚ))).length = 40 from by simp]
  rw [hloop]
  rfl

/-- Claim C8 (amended): the Mueller and Muller loop always terminates —
`i_out` strictly increases by 1 every iteration while the guard requires
`i_out < len(input)` — and WHEN every interpolated-buffer fetch stays inside
the numpy bounds (the loop reaches its exit state instead of raising
`IndexError`), the call returns the slice `out[2:i_out]`, whose length
`i_out - 2` never exceeds the input length.  The claim as stated fails on
inputs where a large negative timing error drives the fetch index out of
bounds (see the counterexample): there the code raises instead of
returning. -/
theorem C8_mmcr_termination_length (interp : ℤ → Sync.CQ) (testpacket : List Sync.CQ)
    (final : Sync.MMState)
    (hok : Sync.mmcrFinal interp testpacket = Except.ok final) :
    Sync.mmcr interp testpacket =
      Except.ok (List.ofFn (fun j : Fin (final.iOut - 2) => final.out (2 + (j : ℕ)))) ∧
    (List.ofFn (fun j : Fin (final.iOut - 2) => final.out (2 + (j : ℕ)))).length =
      final.iOut - 2 ∧
    final.iOut - 2 ≤ testpacket.length ∧
    (∀ (s : Sync.MMState) (o : Sync.CQ), (Sync.mmStepWith s o).iOut = s.iOut + 1) := by
  have h1 := Sync.mmcrFinal_ok_iOut_le interp testpacket final hok
  refine ⟨Sync.mmcr_ok interp testpacket final hok, by simp, ?_, fun s o => rfl⟩
  rcases max_cases testpacket.length 2 with ⟨hm, -⟩ | ⟨hm, -⟩ <;> omega

/-- Claim C8, witness: on the empty input the loop guard fails at once, the
exit state is the initial state (`i_out = 2`), and the call returns the
empty slice without any fetch. -/
theorem C8_witness :
    Sync.mmcrFinal (fun _ => ((0 : ℚ), (0 : ℚ))) ([] : List Sync.CQ) =
      Except.ok ⟨0, 0, 2, fun _ => (0, 0), fun _ => (0, 0)⟩ ∧
    ((⟨0, 0, 2, fun _ => (0, 0), fun _ => (0, 0)⟩ : Sync.MMState).iOut - 2 ≤
      ([] : List Sync.CQ).length) := by
  have hok : Sync.mmcrFinal (fun _ => ((0 : ℚ), (0 : ℚ))) ([] : List Sync.CQ) =
      Except.ok ⟨0, 0, 2, fun _ => (0, 0), fun _ => (0, 0)⟩ := by
    rw [Sync.mmcrFinal, Sync.mmLoop, dif_neg (by norm_num)]
  exact ⟨hok, (C8_mmcr_termination_length (fun _ => (0, 0)) [] _ hok).2.2.1⟩

/-- Claim C5, counterexample to the claim as stated: on the EMPTY input the
frame synchronizer does not return a degenerate result — the
cross-correlation is empty and `np.array(crosscorr).argmax()` raises
`ValueError`, embedded as `Except.error`, so no `ok` result exists. -/
theorem C5_counterexample :
    Sync.frame_sync [] [1] 0 =
      Except.error "ValueError: attempt to get argmax of an empty sequence" ∧
    ∀ r, Sync.frame_sync [] [1] 0 ≠ Except.ok r := by
  refine ⟨rfl, fun r h => ?_⟩
  rw [show Sync.frame_sync [] [1] 0 =
    Except.error "ValueError: attempt to get argmax of an empty sequence" from rfl] at h
  exact Except.noConfusion h

/-- Claim C5 (amended): the Mueller and Muller loop does return the empty
list, without raising, on every input of length at most 16 (the loop guard
`i_in + 16 < len(input)` fails immediately, before any buffer fetch, so
`out[2:2] = []` is returned); the frame synchronizer returns a (possibly
degenerate) pair for every NONEMPTY input and nonempty preamble, but on the
empty input it raises `ValueError` at `argmax` instead of returning an
empty result (see the counterexample). -/
theorem C5_short_input_degenerate (interp : ℤ → Sync.CQ) (x : List Sync.CQ)
    (sig pre : List ℚ) (dlen : ℕ)
    (hx : x.length ≤ 16) (hsig : sig ≠ []) (hpre : pre ≠ []) :
    Sync.mmcr interp x = Except.ok [] ∧ ∃ r, Sync.frame_sync sig pre dlen = Except.ok r :=
  ⟨Sync.mmcr_short interp x hx, Sync.frame_sync_ok_of_ne_nil sig pre dlen hsig hpre⟩

/-- Claim C5, witness: the empty sample list for the clock-recovery loop and
a one-sample signal with a one-sample preamble for the frame synchronizer. -/
theorem C5_witness :
    ([] : List Sync.CQ).length ≤ 16 ∧ ([(1 : ℚ)] : List ℚ) ≠ [] ∧
    (Sync.mmcr (fun _ => (0, 0)) [] = Except.ok [] ∧
      ∃ r, Sync.frame_sync [(1 : ℚ)] [(1 : ℚ)] 0 = Except.ok r) :=
  ⟨by decide, by decide,
    C5_short_input_degenerate (fun _ => (0, 0)) [] [(1 : ℚ)] [(1 : ℚ)] 0
      (by decide) (by decide) (by decide)⟩

namespace Sync

theorem getD_take_drop (l : List ℚ) (s m j : ℕ) (hj : j < m) (hs : s + m ≤ l.length) :
    ((l.drop s).take m).getD j 0 = l.getD (s + j) 0 := by
  have hj1 : j < ((l.drop s).take m).length := by simp; omega
  have hj2 : s + j < l.length := by omega
  have hjd : j < (l.drop s).length := by simp; omega
  rw [List.getD_eq_getElem _ _ hj1, List.getD_eq_getElem _ _ hj2]
  rw [List.getElem_take, List.getElem_drop]

end Sync

/-- Claim C10: when the recovered window indices are in range, both
sequences returned by the frame synchronizer are slices of the ORIGINAL,
unrescaled input: the payload window is `testpacket[idx-len(pre)+1 :
idx+data_len+1]` taken from `testpacket` itself (not from the rescaled copy
`out` used for the cross-correlation), and every sample of the returned
window equals the corresponding input sample. -/
theorem C10_frame_sync_slices (x pre : List ℚ) (dlen : ℕ) (idx : ℕ)
    (hidx : Sync.npArgmax (Sync.fftconvolve (Sync.frameSyncOut x) pre.reverse) = some idx)
    (hlo : pre.length ≤ idx + 1) (hhi : idx + dlen + 1 ≤ x.length) :
    Sync.frame_sync x pre dlen =
      Except.ok ((x.drop (idx + 1 - pre.length)).take (pre.length + dlen),
        ((x.drop (idx + 1 - pre.length)).take (pre.length + dlen)).drop pre.length) ∧
    ∀ j : ℕ, j < pre.length + dlen →
      ((x.drop (idx + 1 - pre.length)).take (pre.length + dlen)).getD j 0 =
        x.getD (idx + 1 - pre.length + j) 0 := by
  have hslice : Sync.pySlice x ((idx : ℤ) - pre.length + 1) ((idx : ℤ) + dlen + 1) =
      (x.drop (idx + 1 - pre.length)).take (pre.length + dlen) := by
    rw [Sync.pySlice]
    have ha : ¬((idx : ℤ) - pre.length + 1 < 0) := by omega
    have hb : ¬((idx : ℤ) + dlen + 1 < 0) := by omega
    simp only [if_neg ha, if_neg hb]
    have hamin : min ((idx : ℤ) - pre.length + 1) ((x.length : ℤ)) =
        (idx : ℤ) - pre.length + 1 := by
      rw [min_eq_left]
      omega
    have hbmin : min ((idx : ℤ) + dlen + 1) ((x.length : ℤ)) = (idx : ℤ) + dlen + 1 := by
      rw [min_eq_left]
      omega
    rw [hamin, hbmin]
    have h1 : ((idx : ℤ) - pre.length + 1).toNat = idx + 1 - pre.length := by omega
    have h2 : ((idx : ℤ) + dlen + 1 - ((idx : ℤ) - pre.length + 1)).toNat =
        pre.length + dlen := by omega
    rw [h1, h2]
  constructor
  · have hfs : Sync.frame_sync x pre dlen =
        Except.ok (Sync.pySlice x ((idx : ℤ) - pre.length + 1) ((idx : ℤ) + dlen + 1),
          (Sync.pySlice x ((idx : ℤ) - pre.length + 1)
            ((idx : ℤ) + dlen + 1)).drop pre.length) := by
      rw [Sync.frame_sync, hidx]
    rw [hfs, hslice]
  · intro j hj
    exact Sync.getD_take_drop x (idx + 1 - pre.length) (pre.length + dlen) j hj (by omega)

/-- Claim C10, witness: input `[1, 3, 2]` (scale 2, rescaled copy
`[3, 5, 4]`), preamble `[1]`, payload length 1: the correlation peak is at
index 1 and the returned windows `[3, 2]` and `[2]` are slices of the input
itself. -/
theorem C10_witness :
    Sync.npArgmax (Sync.fftconvolve (Sync.frameSyncOut [1, 3, 2])
      ([(1 : ℚ)] : List ℚ).reverse) = some 1 ∧
    (([(1 : ℚ)] : List ℚ).length ≤ 1 + 1 ∧ 1 + 1 + 1 ≤ ([1, 3, 2] : List ℚ).length) ∧
    (Sync.frame_sync [1, 3, 2] [(1 : ℚ)] 1 =
        Except.ok ((([1, 3, 2] : List ℚ).drop (1 + 1 - 1)).take (1 + 1),
          ((([1, 3, 2] : List ℚ).drop (1 + 1 - 1)).take (1 + 1)).drop 1) ∧
      ∀ j : ℕ, j < 1 + 1 →
        ((([1, 3, 2] : List ℚ).drop (1 + 1 - 1)).take (1 + 1)).getD j 0 =
          ([1, 3, 2] : List ℚ).getD (1 + 1 - 1 + j) 0) := by
  have hargmax : Sync.npArgmax (Sync.fftconvolve (Sync.frameSyncOut [1, 3, 2])
      ([(1 : ℚ)] : List ℚ).reverse) = some 1 := by
    norm_num [Sync.npArgmax, Sync.argmaxGo, Sync.fftconvolve, Sync.frameSyncOut,
      Sync.scaleOf, Sync.npMean, List.ofFn_succ, Fin.sum_univ_succ, Finset.sum_range_succ,
      List.foldl]
  exact ⟨hargmax, ⟨by simp, by simp⟩,
    C10_frame_sync_slices [1, 3, 2] [(1 : ℚ)] 1 1 hargmax (by simp) (by simp)⟩

namespace Costas

theorem wrapDown_lt (x : ℝ) : wrapDown x < 2 * Real.pi := by
  refine wrapDown.induct (fun x => wrapDown x < 2 * Real.pi) ?_ ?_ x
  · intro y hy ih
    rw [wrapDown, if_pos hy]
    exact ih
  · intro y hy
    rw [wrapDown, if_neg hy]
    exact lt_of_not_le hy

theorem wrapUp_nonneg (x : ℝ) : 0 ≤ wrapUp x := by
  refine wrapUp.induct (fun x => 0 ≤ wrapUp x) ?_ ?_ x
  · intro y hy ih
    rw [wrapUp, if_pos hy]
    exact ih
  · intro y hy
    rw [wrapUp, if_neg hy]
    exact le_of_not_lt hy

theorem wrapUp_lt (x : ℝ) (h : x < 2 * Real.pi) : wrapUp x < 2 * Real.pi := by
  refine wrapUp.induct (fun x => x < 2 * Real.pi → wrapUp x < 2 * Real.pi) ?_ ?_ x h
  · intro y hy ih _
    rw [wrapUp, if_pos hy]
    exact ih (by have := Real.pi_pos; linarith)
  · intro y hy hlt
    rw [wrapUp, if_neg hy]
    exact hlt

theorem wrapPhase_mem (x : ℝ) : wrapPhase x ∈ Set.Ico 0 (2 * Real.pi) :=
  ⟨wrapUp_nonneg (wrapDown x), wrapUp_lt (wrapDown x) (wrapDown_lt x)⟩

theorem foldl_phase_mem (alpha beta : ℝ) (l : List ℂ) (s : State)
    (hs : s.phase ∈ Set.Ico 0 (2 * Real.pi)) :
    (l.foldl (step alpha beta) s).phase ∈ Set.Ico 0 (2 * Real.pi) := by
  induction l generalizing s with
  | nil => exact hs
  | cons z l ih =>
    rw [List.foldl_cons]
    exact ih (step alpha beta s z) (wrapPhase_mem _)

end Costas

/-- Claim C9: the Costas loop of `SignalProcessing.decode` (a) keeps its
phase register inside `[0, 2π)` at the end of every per-sample iteration
(the state after any number of steps, starting from phase 0, has its phase
in `Set.Ico 0 (2π)`, restored by the two wrap loops); (b) processes the
input strictly left to right, one `step` per sample; and (c) in each step
writes `out[i] = in[i]·exp(-j·phase)` with the phase held at the start of
the iteration, updates `freq` first (`freq += beta·error`), and then
updates the phase using the ALREADY-UPDATED `freq`
(`phase += freq + alpha·error`, then wrapping). -/
theorem C9_costas_loop (alpha beta : ℝ) (testpacket : List ℂ) :
    (Costas.run alpha beta testpacket).phase ∈ Set.Ico 0 (2 * Real.pi) ∧
    (∀ (xs : List ℂ) (z : ℂ),
      Costas.run alpha beta (xs ++ [z]) =
        Costas.step alpha beta (Costas.run alpha beta xs) z) ∧
    (∀ (s : Costas.State) (z : ℂ),
      (Costas.step alpha beta s z).out =
        s.out ++ [z * Complex.exp (-(Complex.I * (s.phase : ℂ)))] ∧
      (Costas.step alpha beta s z).freq = s.freq + beta * Costas.errorOf s.phase z ∧
      (Costas.step alpha beta s z).phase =
        Costas.wrapPhase (s.phase + ((Costas.step alpha beta s z).freq +
          alpha * Costas.errorOf s.phase z))) := by
  refine ⟨?_, ?_, ?_⟩
  · refine Costas.foldl_phase_mem alpha beta testpacket _ ⟨le_rfl, ?_⟩
    have := Real.pi_pos
    simp only []
    linarith
  · intro xs z
    rw [Costas.run, Costas.run, List.foldl_append, List.foldl_cons, List.foldl_nil]
  · intro s z
    exact ⟨rfl, rfl, rfl⟩

namespace IQ

theorem meanInner_two_stop0 (x y s : ℝ) (f : ℕ) :
    meanInner [x, y] 0 2 f (2, s) = (2, s) := by
  cases f <;> rfl

theorem meanInner_two_stop1 (x y s : ℝ) (f : ℕ) :
    meanInner [x, y] 1 2 f (2, s) = (2, s) := by
  cases f <;> rfl

theorem meanAt_two_zero (x y : ℝ) (p : ℕ) (hp : 1 ≤ p) :
    meanAt [x, y] p 0 = (x + y) / 2 := by
  obtain ⟨f, rfl⟩ : ∃ f, p = f + 1 := ⟨p - 1, by omega⟩
  rw [meanAt,
    show meanInner [x, y] 0 1 (f + 1) (1, ([x, y] : List ℝ).getD 0 0) =
      meanInner [x, y] 0 2 f (2, x + y) from rfl,
    meanInner_two_stop0]
  norm_num

theorem meanAt_two_one (x y : ℝ) (p : ℕ) (hp : 1 ≤ p) :
    meanAt [x, y] p 1 = (y + x) / 2 := by
  obtain ⟨f, rfl⟩ : ∃ f, p = f + 1 := ⟨p - 1, by omega⟩
  rw [meanAt,
    show meanInner [x, y] 1 1 (f + 1) (1, ([x, y] : List ℝ).getD 1 0) =
      meanInner [x, y] 1 2 f (2, y + x) from rfl,
    meanInner_two_stop1]
  norm_num

theorem Mean_two (x y : ℝ) (p : ℕ) (hp : 1 ≤ p) :
    Mean [x, y] p = [(x + y) / 2, (y + x) / 2] := by
  rw [Mean]
  rw [show List.range ([x, y] : List ℝ).length = [0, 1] from rfl]
  rw [List.map_cons, List.map_cons, List.map_nil,
    meanAt_two_zero x y p hp, meanAt_two_one x y p hp]

end IQ

/-- Claim C6: on the two-sample packet `[1+1j, -1-1j]` (with the default
window radius 10000) the imbalance estimate is `sin_psi = √2 ∉ [-1, 1]`, and
the corrector does NOT signal any error condition: it returns a full
two-sample output whose imaginary parts are both NaN
(`cos_psi = np.sqrt(1 - 2)` is NaN, embedded as `none`, and it propagates
through `C`, `D` and `Q_final`), silently. -/
theorem C6_iq_imbalance_nan :
    IQ.sinPsi [((1 : ℝ), 1), (-1, -1)] 10000 = Real.sqrt 2 ∧
    1 < IQ.sinPsi [((1 : ℝ), 1), (-1, -1)] 10000 ∧
    IQ.IQ_Imbalance_Correct [((1 : ℝ), 1), (-1, -1)] 10000 =
      [(1 / Real.sqrt 2 * 1, none), (1 / Real.sqrt 2 * -1, none)] := by
  have hsqrt2 : (1 : ℝ) < Real.sqrt 2 := by
    have h : Real.sqrt 1 < Real.sqrt 2 := by
      rw [show (1 : ℝ) = Real.sqrt 1 from (Real.sqrt_one).symm] at *
      exact Real.sqrt_lt_sqrt (by norm_num) (by norm_num)
    simpa [Real.sqrt_one] using h
  have hI : ([((1 : ℝ), 1), (-1, -1)] : List (ℝ × ℝ)).map Prod.fst = [1, -1] := by
    simp
  have hQ : ([((1 : ℝ), 1), (-1, -1)] : List (ℝ × ℝ)).map Prod.snd = [1, -1] := by
    simp
  have hMean : IQ.Mean [(1 : ℝ), -1] 10000 = [0, 0] := by
    rw [IQ.Mean_two 1 (-1) 10000 (by norm_num)]
    norm_num
  have hIsec : IQ.Isecond [((1 : ℝ), 1), (-1, -1)] 10000 = [1, -1] := by
    rw [IQ.Isecond, hI, hMean]
    norm_num [List.zipWith]
  have hQsec : IQ.Qsecond [((1 : ℝ), 1), (-1, -1)] 10000 = [1, -1] := by
    rw [IQ.Qsecond, hQ, hMean]
    norm_num [List.zipWith]
  have ha : IQ.aOf [((1 : ℝ), 1), (-1, -1)] 10000 = Real.sqrt 2 := by
    rw [IQ.aOf, hIsec]
    norm_num [IQ.npMeanR]
  have hsin : IQ.sinPsi [((1 : ℝ), 1), (-1, -1)] 10000 = Real.sqrt 2 := by
    rw [IQ.sinPsi, ha, hIsec, hQsec]
    norm_num [IQ.npMeanR, List.zipWith]
  have hcos : IQ.npSqrt (1 - IQ.sinPsi [((1 : ℝ), 1), (-1, -1)] 10000 ^ 2) = none := by
    rw [hsin, IQ.npSqrt, if_pos]
    rw [Real.sq_sqrt (by norm_num : (0 : ℝ) ≤ 2)]
    norm_num
  refine ⟨hsin, hsin ▸ hsqrt2, ?_⟩
  rw [IQ.IQ_Imbalance_Correct]
  rw [hI, hQ, ha, hcos]
  simp [List.zipWith]

namespace Demod

theorem cAbs_lt_iff (a b c d : ℝ) :
    cAbs a b < cAbs c d ↔ a ^ 2 + b ^ 2 < c ^ 2 + d ^ 2 := by
  rw [cAbs, cAbs]
  exact Real.sqrt_lt_sqrt_iff (by positivity)

end Demod

/-- Claim C7: calling the symbol demodulator with scheme OOK always raises
`AttributeError` instead of returning the bit list: the OOK branch fills a
plain Python list and the final `a_demodulated.astype(int)` has no meaning
on a list.  The bits the loop DOES build before the failure are exactly one
bit per symbol, 1 when the symbol is strictly nearer (in Euclidean distance,
equivalently in squared distance) to the reference level `channel_gain` than
to 0, and 0 otherwise. -/
theorem C7_symbol_demod_ook (I Q : List ℝ) (channel_gain : ℝ) (preamble_len : ℕ) :
    Demod.symbol_demod_OOK I Q channel_gain preamble_len =
      Except.error "AttributeError: list object has no attribute astype" ∧
    Demod.ookBits I Q channel_gain = (I.zip Q).map (fun z =>
      if (z.1 - channel_gain) ^ 2 + z.2 ^ 2 < z.1 ^ 2 + z.2 ^ 2 then 1 else 0) ∧
    (Demod.ookBits I Q channel_gain).length = (I.zip Q).length := by
  refine ⟨rfl, ?_, by simp [Demod.ookBits]⟩
  rw [Demod.ookBits]
  apply List.map_congr_left
  intro z _
  dsimp only
  have h1 : z.1 - 1.0 * channel_gain = z.1 - channel_gain := by norm_num
  have h2 : z.1 - 0 * channel_gain = z.1 := by ring
  rw [h1, h2, if_congr (Demod.cAbs_lt_iff _ _ _ _) rfl rfl]
